import Mathlib

/-!
Shallow embedding of `student_code.py`: a small in-memory directed-graph
library (`SortableDigraph`, `TraversableDigraph`, `DAG`).

The Python `dict` adjacency map is modelled as an association list
`List (α × List α)` preserving key insertion order (Python dicts iterate in
insertion order); each value list is the ordered out-neighbor sequence.
Python `set` objects (the visited sets) are modelled as `Finset α`.
The recursive procedures (`topsort`'s inner `visit`, `dfs`, `_has_path`) and
the `bfs` while-loop are modelled with explicit fuel, structurally recursive
on the fuel so that every definition is executable and kernel-reducible; the
fuel bounds chosen are proved sufficient in the theorems below.
-/

namespace SD

variable {α : Type} [DecidableEq α]

/-- The adjacency mapping `self.adj`: an insertion-ordered association list
from node to its ordered out-neighbor list. -/
abbrev Graph (α : Type) : Type := List (α × List α)

/-- The key list of the adjacency mapping, in insertion order
(`list(self.adj.keys())`). -/
def keys (g : Graph α) : List α := g.map Prod.fst

/-- `self.adj.get(node, [])`: the out-neighbor list of `node`, or `[]` when
`node` is not a key (first matching entry, as in a dict). -/
def adjGet (g : Graph α) (x : α) : List α :=
  match g with
  | [] => []
  | (a, l) :: t => if a = x then l else adjGet t x

/-- `SortableDigraph.add_node`: insert `node` with an empty neighbor list if
absent; no-op if present. -/
def addNode (g : Graph α) (n : α) : Graph α :=
  if n ∈ keys g then g else g ++ [(n, [])]

/-- `self.adj[u].append(v)`: append `v` to the neighbor list of the (first)
entry for `u`. -/
def appendAdj (g : Graph α) (u v : α) : Graph α :=
  match g with
  | [] => []
  | (a, l) :: t => if a = u then (a, l ++ [v]) :: t else (a, l) :: appendAdj t u v

/-- `SortableDigraph.add_edge`: `add_node(u); add_node(v); adj[u].append(v)`. -/
def addEdge (g : Graph α) (u v : α) : Graph α :=
  appendAdj (addNode (addNode g u) v) u v

/-- The edge relation of the adjacency mapping: `u -> v` iff `v` occurs in
`u`'s neighbor list. -/
def Edge (g : Graph α) (u v : α) : Prop := v ∈ adjGet g u

instance (g : Graph α) (u v : α) : Decidable (Edge g u v) := by
  unfold Edge; infer_instance

/-- Reachability: a directed path of zero or more edges. -/
def Reaches (g : Graph α) : α → α → Prop := Relation.ReflTransGen (Edge g)

/-- Acyclicity of the adjacency relation: no directed cycle, i.e. no edge
`u -> v` whose target already reaches its source. -/
def Acyclic (g : Graph α) : Prop := ∀ u v, Edge g u v → ¬ Reaches g v u

/-- Well-formedness enforced by the API (spec §3): every neighbor value is
also a key. -/
def Closed (g : Graph α) : Prop := ∀ p ∈ g, ∀ y ∈ p.2, y ∈ keys g

instance (g : Graph α) : Decidable (Closed g) := by
  unfold Closed
  infer_instance

/-- All node identifiers mentioned anywhere in the adjacency mapping:
keys together with all neighbor values.  Used only as a fuel bound. -/
def nodesU (g : Graph α) : Finset α :=
  (g.map Prod.fst).toFinset ∪ ((g.map Prod.snd).flatten).toFinset

/-- Fuel bound for the depth-first procedures (recursion depth is at most the
number of distinct nodes). -/
def fuelN (g : Graph α) : Nat := (nodesU g).card + 1

/-- The mutable state of a depth-first visit: the `visited` set, the sequence
of nodes in the order first visited (`dfs`'s yields), and the sequence of
nodes in the order finished (`topsort`'s `result`). -/
structure VState (α : Type) where
  vis : Finset α
  pre : List α
  post : List α

/-- One call of the recursive visit procedure shared (up to which output list
is produced) by `SortableDigraph.topsort`'s inner `visit` (which appends to
`result` = `post` after the neighbor loop) and `TraversableDigraph.dfs`
(which yields = appends to `pre` before the neighbor loop): check the visited
set, mark, emit, recurse into each out-neighbor in order. -/
def visitNode [DecidableEq α] (g : Graph α) : Nat → α → VState α → VState α
  | 0, _, s => s
  | f + 1, n, s =>
    if n ∈ s.vis then s
    else
      let s1 := (adjGet g n).foldl (fun acc m => visitNode g f m acc)
        ⟨insert n s.vis, s.pre ++ [n], s.post⟩
      ⟨s1.vis, s1.pre, s1.post ++ [n]⟩

/-- The visit procedure folded over a list of roots (the `for node in
list(self.adj.keys()): visit(node)` loop, and a neighbor loop one level up). -/
def visitList (g : Graph α) (f : Nat) (ns : List α) (s : VState α) : VState α :=
  ns.foldl (fun acc m => visitNode g f m acc) s

/-- `SortableDigraph.topsort`: depth-first post-order over all keys, reversed
(`result[::-1]`). -/
def topsort (g : Graph α) : List α :=
  (visitList g (fuelN g) (keys g) ⟨∅, [], []⟩).post.reverse

/-- `TraversableDigraph.dfs(start)` with an explicit start node: the list of
yielded nodes. -/
def dfs (g : Graph α) (start : α) : List α :=
  (visitNode g (fuelN g) start ⟨∅, [], []⟩).pre

/-- The body of `bfs`'s neighbor loop: `if neighbor not in visited:
visited.add(neighbor); queue.append(neighbor)` acting on `(visited, queue)`. -/
def bfsEnq : Finset α × List α → α → Finset α × List α :=
  fun acc nb => if nb ∈ acc.1 then acc else (insert nb acc.1, acc.2 ++ [nb])

/-- `bfs`'s `while queue:` loop: pop the front node, yield it, enqueue its
not-yet-visited out-neighbors (marking them visited at enqueue time). -/
def bfsLoop (g : Graph α) : Nat → List α → Finset α → List α → List α
  | 0, _, _, out => out
  | _ + 1, [], _, out => out
  | f + 1, n :: q, vis, out =>
    let p := (adjGet g n).foldl bfsEnq (vis, q)
    bfsLoop g f p.2 p.1 (out ++ [n])

/-- Fuel bound for the `bfs` loop (one unit per dequeue). -/
def fuelB (g : Graph α) : Nat := (nodesU g).card + 2

/-- `TraversableDigraph.bfs(start)` with an explicit start node: empty when
the adjacency mapping is empty (`if not self.adj: return`), else the loop
starting from `visited = {start}`, `queue = deque([start])`. -/
def bfs (g : Graph α) (start : α) : List α :=
  if g = [] then [] else bfsLoop g (fuelB g) [start] {start} []

/-- One call of `DAG._has_path(start, end, visited)`: `start == end` check
first, then mark `start` visited and scan out-neighbors depth-first, stopping
as soon as a recursive call succeeds.  Returns the result together with the
(shared, mutated) visited set. -/
def hasPathAux (g : Graph α) (e : α) : Nat → α → Finset α → Bool × Finset α
  | 0, _, vis => (false, vis)
  | f + 1, n, vis =>
    if n = e then (true, vis)
    else
      (adjGet g n).foldl
        (fun acc nb =>
          if acc.1 then acc
          else if nb ∈ acc.2 then acc
          else hasPathAux g e f nb acc.2)
        (false, insert n vis)

/-- The body of `_has_path`'s neighbor loop, acting on the pair
(result so far, shared visited set): stop once true, skip visited neighbors,
otherwise recurse. -/
def hpStep (g : Graph α) (e : α) (f : Nat) : Bool × Finset α → α → Bool × Finset α :=
  fun acc nb =>
    if acc.1 then acc
    else if nb ∈ acc.2 then acc
    else hasPathAux g e f nb acc.2

/-- `DAG._has_path(start, end)` with the default fresh visited set. -/
def hasPath (g : Graph α) (s e : α) : Bool :=
  (hasPathAux g e (fuelN g) s ∅).1

/-- `DAG.add_edge(u, v)`: raise `ValueError` (carrying the rejected pair
`(u, v)`) when a path `v -> ... -> u` already exists, leaving the adjacency
mapping untouched; otherwise perform the base-class insertion.  The result is
the post-call adjacency mapping together with the raised error, if any. -/
def dagAddEdge (g : Graph α) (u v : α) : Graph α × Option (α × α) :=
  if hasPath g v u then (g, some (u, v)) else (addEdge g u v, none)

/-- The DAG states reachable from a fresh `DAG()` by any sequence of
`add_node` and `add_edge` calls, where a raising `add_edge` leaves the state
unchanged (`(dagAddEdge g u v).1` is the post-call state in either case). -/
inductive DagReachable : Graph α → Prop
  | empty : DagReachable []
  | addNode (g : Graph α) (n : α) : DagReachable g → DagReachable (addNode g n)
  | addEdge (g : Graph α) (u v : α) : DagReachable g → DagReachable (dagAddEdge g u v).1

/-- Paths of an exact length, built by extending at the target end. -/
inductive ReachN (g : Graph α) : α → α → Nat → Prop
  | refl (x : α) : ReachN g x x 0
  | tail {x y z : α} {n : Nat} : ReachN g x y n → Edge g y z → ReachN g x z (n + 1)

/-- Edge-distance: the length of a shortest directed path (meaningful on
reachable pairs). -/
noncomputable def dist (g : Graph α) (s y : α) : Nat :=
  sInf {n | ReachN g s y n}

/-- Executable acyclicity check (used only to discharge `Acyclic` at concrete
graphs): every recorded edge `u -> v` has no return path `v -> u`. -/
def acyclicB (g : Graph α) : Bool :=
  g.all fun p => p.2.all fun v => ! hasPath g v p.1

/-! ### Basic lemmas about the storage operations -/

theorem adjGet_eq_nil_of_not_mem_keys {g : Graph α} {x : α} (h : x ∉ keys g) :
    adjGet g x = [] := by
  induction g with
  | nil => rfl
  | cons p t ih =>
    obtain ⟨a, l⟩ := p
    have hax : a ≠ x := by rintro rfl; exact h (by simp [keys])
    have hxt : x ∉ keys t := fun hx => h (by simp [keys] at hx ⊢; exact Or.inr hx)
    simp [adjGet, hax, ih hxt]

theorem mem_keys_of_adjGet_ne_nil {g : Graph α} {x : α} (h : adjGet g x ≠ []) :
    x ∈ keys g := by
  by_contra hx
  exact h (adjGet_eq_nil_of_not_mem_keys hx)

theorem exists_entry_of_adjGet_ne_nil {g : Graph α} {x : α} (h : adjGet g x ≠ []) :
    (x, adjGet g x) ∈ g := by
  induction g with
  | nil => exact absurd rfl h
  | cons p t ih =>
    obtain ⟨a, l⟩ := p
    by_cases hax : a = x
    · subst hax
      simp [adjGet]
    · simp only [adjGet, if_neg hax] at h ⊢
      exact List.mem_cons_of_mem _ (ih h)

theorem keys_addNode (g : Graph α) (n : α) :
    keys (addNode g n) = if n ∈ keys g then keys g else keys g ++ [n] := by
  unfold addNode
  split <;> simp [keys]

theorem mem_keys_addNode {g : Graph α} {n x : α} :
    x ∈ keys (addNode g n) ↔ x ∈ keys g ∨ x = n := by
  rw [keys_addNode]
  by_cases hn : n ∈ keys g
  · rw [if_pos hn]
    constructor
    · exact Or.inl
    · rintro (h | rfl)
      exacts [h, hn]
  · rw [if_neg hn]
    simp

theorem adjGet_append (g h : Graph α) (x : α) :
    adjGet (g ++ h) x = if x ∈ keys g then adjGet g x else adjGet h x := by
  induction g with
  | nil => simp [keys, adjGet]
  | cons p t ih =>
    obtain ⟨a, l⟩ := p
    by_cases hax : a = x
    · subst hax
      simp [adjGet, keys]
    · have hxa : ¬ x = a := fun he => hax he.symm
      simp only [List.cons_append, adjGet, if_neg hax, keys, List.map_cons,
        List.mem_cons, hxa, false_or]
      exact ih

theorem adjGet_addNode (g : Graph α) (n x : α) :
    adjGet (addNode g n) x = adjGet g x := by
  unfold addNode
  split
  · rfl
  · rw [adjGet_append]
    split
    · rfl
    · rename_i hx
      rw [adjGet_eq_nil_of_not_mem_keys hx]
      simp [adjGet]

theorem keys_appendAdj (g : Graph α) (u v : α) :
    keys (appendAdj g u v) = keys g := by
  induction g with
  | nil => rfl
  | cons p t ih =>
    obtain ⟨a, l⟩ := p
    unfold appendAdj
    split <;> simp [keys] at ih ⊢ <;> exact ih

theorem adjGet_appendAdj_self {g : Graph α} {u : α} (v : α) (h : u ∈ keys g) :
    adjGet (appendAdj g u v) u = adjGet g u ++ [v] := by
  induction g with
  | nil => simp [keys] at h
  | cons p t ih =>
    obtain ⟨a, l⟩ := p
    by_cases hau : a = u
    · subst hau
      simp [appendAdj, adjGet]
    · simp only [appendAdj, if_neg hau, adjGet]
      exact ih (by simp [keys] at h ⊢; tauto)

theorem adjGet_appendAdj_ne (g : Graph α) {u x : α} (v : α) (h : x ≠ u) :
    adjGet (appendAdj g u v) x = adjGet g x := by
  induction g with
  | nil => rfl
  | cons p t ih =>
    obtain ⟨a, l⟩ := p
    by_cases hau : a = u
    · subst hau
      have hax : ¬ a = x := fun he => h he.symm
      simp [appendAdj, adjGet, hax]
    · by_cases hax : a = x
      · subst hax
        simp [appendAdj, hau, adjGet]
      · simp [appendAdj, hau, adjGet, hax, ih]

theorem mem_keys_addEdge {g : Graph α} {u v x : α} :
    x ∈ keys (addEdge g u v) ↔ x ∈ keys g ∨ x = u ∨ x = v := by
  unfold addEdge
  rw [keys_appendAdj]
  simp [mem_keys_addNode]
  tauto

theorem adjGet_addEdge_self (g : Graph α) (u v : α) :
    adjGet (addEdge g u v) u = adjGet g u ++ [v] := by
  unfold addEdge
  rw [adjGet_appendAdj_self v (by simp [mem_keys_addNode]),
    adjGet_addNode, adjGet_addNode]

theorem adjGet_addEdge_ne (g : Graph α) {u x : α} (v : α) (h : x ≠ u) :
    adjGet (addEdge g u v) x = adjGet g x := by
  unfold addEdge
  rw [adjGet_appendAdj_ne _ _ h, adjGet_addNode, adjGet_addNode]

theorem edge_addEdge {g : Graph α} {u v x y : α} :
    Edge (addEdge g u v) x y ↔ Edge g x y ∨ (x = u ∧ y = v) := by
  unfold Edge
  by_cases hxu : x = u
  · subst hxu
    rw [adjGet_addEdge_self]
    simp
  · rw [adjGet_addEdge_ne _ _ hxu]
    simp [hxu]

theorem mem_nodesU_of_mem_keys {g : Graph α} {x : α} (h : x ∈ keys g) :
    x ∈ nodesU g := by
  unfold nodesU
  simp only [Finset.mem_union, List.mem_toFinset]
  exact Or.inl h

theorem mem_nodesU_of_mem_adjGet {g : Graph α} {x y : α} (h : y ∈ adjGet g x) :
    y ∈ nodesU g := by
  unfold nodesU
  simp only [Finset.mem_union, List.mem_toFinset, List.mem_flatten]
  have hne : adjGet g x ≠ [] := fun he => by simp [he] at h
  exact Or.inr ⟨adjGet g x, List.mem_map_of_mem Prod.snd (exists_entry_of_adjGet_ne_nil hne), h⟩

theorem card_sdiff_le_of_subset {U a b : Finset α} (h : a ⊆ b) :
    (U \ b).card ≤ (U \ a).card :=
  Finset.card_le_card (Finset.sdiff_subset_sdiff (Finset.Subset.refl U) h)

theorem card_sdiff_insert_lt {U vis : Finset α} {n : α} (hn : n ∈ U) (hnv : n ∉ vis) :
    (U \ insert n vis).card < (U \ vis).card := by
  rw [Finset.sdiff_insert]
  exact Finset.card_erase_lt_of_mem (Finset.mem_sdiff.2 ⟨hn, hnv⟩)

theorem nodesU_eq_keys_of_closed {g : Graph α} (h : Closed g) :
    nodesU g = (keys g).toFinset := by
  apply Finset.Subset.antisymm
  · intro x hx
    unfold nodesU at hx
    simp only [Finset.mem_union, List.mem_toFinset, List.mem_flatten] at hx
    rcases hx with hx | ⟨l, hl, hxl⟩
    · exact List.mem_toFinset.2 hx
    · simp only [List.mem_map] at hl
      obtain ⟨p, hp, hpl⟩ := hl
      simpa using h p hp x (hpl ▸ hxl)
  · intro x hx
    exact mem_nodesU_of_mem_keys (by simpa using hx)

/-! ### Correctness of the reachability check `_has_path` -/

theorem hasPathAux_zero (g : Graph α) (e n : α) (vis : Finset α) :
    hasPathAux g e 0 n vis = (false, vis) := rfl

theorem hasPathAux_succ (g : Graph α) (e : α) (f : Nat) (n : α) (vis : Finset α) :
    hasPathAux g e (f + 1) n vis =
      if n = e then (true, vis)
      else (adjGet g n).foldl (hpStep g e f) (false, insert n vis) := rfl

theorem hasPathAux_mono (g : Graph α) (e : α) :
    ∀ f n vis, vis ⊆ (hasPathAux g e f n vis).2 := by
  intro f
  induction f with
  | zero => intro n vis; exact Finset.Subset.refl _
  | succ f ih =>
    intro n vis
    rw [hasPathAux_succ]
    by_cases hne : n = e
    · rw [if_pos hne]
    · rw [if_neg hne]
      have foldMono : ∀ (l : List α) (acc : Bool × Finset α),
          acc.2 ⊆ (l.foldl (hpStep g e f) acc).2 := by
        intro l
        induction l with
        | nil => intro acc; exact Finset.Subset.refl _
        | cons nb l ihl =>
          intro acc
          rw [List.foldl_cons]
          refine Finset.Subset.trans ?_ (ihl (hpStep g e f acc nb))
          unfold hpStep
          split
          · exact Finset.Subset.refl _
          · split
            · exact Finset.Subset.refl _
            · exact ih nb acc.2
      exact Finset.Subset.trans (Finset.subset_insert n vis)
        (foldMono (adjGet g n) (false, insert n vis))

theorem foldl_hpStep_mono (g : Graph α) (e : α) (f : Nat) :
    ∀ (l : List α) (acc : Bool × Finset α),
      acc.2 ⊆ (l.foldl (hpStep g e f) acc).2 := by
  intro l
  induction l with
  | nil => intro acc; exact Finset.Subset.refl _
  | cons nb l ihl =>
    intro acc
    rw [List.foldl_cons]
    refine Finset.Subset.trans ?_ (ihl (hpStep g e f acc nb))
    unfold hpStep
    split
    · exact Finset.Subset.refl _
    · split
      · exact Finset.Subset.refl _
      · exact hasPathAux_mono g e f nb acc.2

theorem hasPathAux_new_ne (g : Graph α) (e : α) :
    ∀ f n vis x, x ∈ (hasPathAux g e f n vis).2 → x ∈ vis ∨ x ≠ e := by
  intro f
  induction f with
  | zero => intro n vis x hx; exact Or.inl hx
  | succ f ih =>
    intro n vis x
    rw [hasPathAux_succ]
    by_cases hne : n = e
    · rw [if_pos hne]; exact Or.inl
    · rw [if_neg hne]
      have foldNe : ∀ (l : List α) (acc : Bool × Finset α) (x : α),
          x ∈ (l.foldl (hpStep g e f) acc).2 → x ∈ acc.2 ∨ x ≠ e := by
        intro l
        induction l with
        | nil => intro acc x hx; exact Or.inl hx
        | cons nb l ihl =>
          intro acc x hx
          rw [List.foldl_cons] at hx
          rcases ihl (hpStep g e f acc nb) x hx with hx' | hx'
          · unfold hpStep at hx'
            split at hx'
            · exact Or.inl hx'
            · split at hx'
              · exact Or.inl hx'
              · exact ih nb acc.2 x hx'
          · exact Or.inr hx'
      intro hx
      rcases foldNe (adjGet g n) (false, insert n vis) x hx with hx' | hx'
      · rcases Finset.mem_insert.1 hx' with rfl | hv
        · exact Or.inr hne
        · exact Or.inl hv
      · exact Or.inr hx'

theorem hasPathAux_sound (g : Graph α) (e : α) :
    ∀ f n vis, (hasPathAux g e f n vis).1 = true → Reaches g n e := by
  intro f
  induction f with
  | zero => intro n vis h; exact absurd h (by simp [hasPathAux_zero])
  | succ f ih =>
    intro n vis
    rw [hasPathAux_succ]
    by_cases hne : n = e
    · rw [if_pos hne]
      intro _
      exact hne ▸ Relation.ReflTransGen.refl
    · rw [if_neg hne]
      have foldSound : ∀ (l : List α) (acc : Bool × Finset α),
          (l.foldl (hpStep g e f) acc).1 = true →
          acc.1 = true ∨ ∃ nb ∈ l, Reaches g nb e := by
        intro l
        induction l with
        | nil => intro acc h; exact Or.inl h
        | cons nb l ihl =>
          intro acc h
          rw [List.foldl_cons] at h
          rcases ihl (hpStep g e f acc nb) h with h' | ⟨m, hm, hr⟩
          · unfold hpStep at h'
            split at h'
            · exact Or.inl h'
            · split at h'
              · exact Or.inl h'
              · exact Or.inr ⟨nb, List.mem_cons_self nb l, ih nb acc.2 h'⟩
          · exact Or.inr ⟨m, List.mem_cons_of_mem nb hm, hr⟩
      intro h
      rcases foldSound (adjGet g n) (false, insert n vis) h with h' | ⟨m, hm, hr⟩
      · exact absurd h' (by simp)
      · exact Relation.ReflTransGen.head hm hr

theorem hasPathAux_false_spec (g : Graph α) (e : α) :
    ∀ f n vis, (nodesU g \ vis).card < f → n ∉ vis →
      (hasPathAux g e f n vis).1 = false →
      n ∈ (hasPathAux g e f n vis).2 ∧
      ∀ x ∈ (hasPathAux g e f n vis).2, x ∉ vis →
        ∀ y ∈ adjGet g x, y ∈ (hasPathAux g e f n vis).2 := by
  intro f
  induction f with
  | zero => intro n vis hcard; exact absurd hcard (by simp)
  | succ f ih =>
    intro n vis hcard hnv
    rw [hasPathAux_succ]
    by_cases hne : n = e
    · rw [if_pos hne]; intro h; exact absurd h (by simp)
    · rw [if_neg hne]
      by_cases hnU : n ∈ nodesU g
      all_goals intro hfalse
      case neg =>
        -- n is mentioned nowhere in the graph: it has no out-neighbors
        have hadj : adjGet g n = [] := by
          by_contra hc
          exact hnU (mem_nodesU_of_mem_keys (mem_keys_of_adjGet_ne_nil hc))
        rw [hadj]
        simp only [List.foldl_nil]
        refine ⟨Finset.mem_insert_self n vis, ?_⟩
        intro x hx hxv
        rcases Finset.mem_insert.1 hx with rfl | hv
        · rw [hadj]; intro y hy; exact absurd hy (List.not_mem_nil y)
        · exact absurd hv hxv
      case pos =>
        have hcard' : (nodesU g \ insert n vis).card < f :=
          lt_of_lt_of_le (card_sdiff_insert_lt hnU hnv) (Nat.lt_succ_iff.1 hcard)
        -- invariant for the neighbor loop
        have foldSpec : ∀ (l : List α) (acc : Bool × Finset α),
            (nodesU g \ acc.2).card < f →
            (l.foldl (hpStep g e f) acc).1 = false →
            acc.1 = false ∧
            (∀ nb ∈ l, nb ∈ (l.foldl (hpStep g e f) acc).2) ∧
            (∀ x ∈ (l.foldl (hpStep g e f) acc).2, x ∉ acc.2 →
              ∀ y ∈ adjGet g x, y ∈ (l.foldl (hpStep g e f) acc).2) := by
          intro l
          induction l with
          | nil =>
            intro acc _ hf
            exact ⟨hf, fun nb hnb => absurd hnb (List.not_mem_nil nb),
              fun x hx hxa => absurd hx hxa⟩
          | cons nb l ihl =>
            intro acc hacc hf
            rw [List.foldl_cons] at hf ⊢
            have hstep2 : acc.2 ⊆ (hpStep g e f acc nb).2 := by
              unfold hpStep
              split
              · exact Finset.Subset.refl _
              · split
                · exact Finset.Subset.refl _
                · exact hasPathAux_mono g e f nb acc.2
            have hcards : (nodesU g \ (hpStep g e f acc nb).2).card < f :=
              lt_of_le_of_lt (card_sdiff_le_of_subset hstep2) hacc
            obtain ⟨hsf, hmem, hclo⟩ := ihl (hpStep g e f acc nb) hcards hf
            have hmono := foldl_hpStep_mono g e f l (hpStep g e f acc nb)
            by_cases ha1 : acc.1 = true
            · exfalso
              have ht : (hpStep g e f acc nb).1 = true := by
                unfold hpStep; rw [if_pos ha1]; exact ha1
              simp [ht] at hsf
            · have ha1' : acc.1 = false := Bool.eq_false_iff.2 ha1
              refine ⟨ha1', ?_, ?_⟩
              · intro m hm
                rcases List.mem_cons.1 hm with rfl | hml
                · -- the head neighbor ends up visited (or the loop found e)
                  by_cases hmv : m ∈ acc.2
                  · exact hmono (hstep2 hmv)
                  · have hstep_eq : hpStep g e f acc m = hasPathAux g e f m acc.2 := by
                      unfold hpStep
                      rw [if_neg (by simp [ha1']), if_neg hmv]
                    have hrf : (hasPathAux g e f m acc.2).1 = false := hstep_eq ▸ hsf
                    obtain ⟨hmm, _⟩ := ih m acc.2 hacc hmv hrf
                    exact hmono (hstep_eq ▸ hmm)
                · exact hmem m hml
              · intro x hx hxa y hy
                by_cases hx1 : x ∈ (hpStep g e f acc nb).2
                · -- x was visited during the head neighbor's recursive call
                  by_cases hnbv : nb ∈ acc.2
                  · exfalso
                    have : hpStep g e f acc nb = acc := by
                      unfold hpStep
                      rw [if_neg (by simp [ha1']), if_pos hnbv]
                    exact hxa (this ▸ hx1)
                  · have hstep_eq : hpStep g e f acc nb = hasPathAux g e f nb acc.2 := by
                      unfold hpStep
                      rw [if_neg (by simp [ha1']), if_neg hnbv]
                    have hrf : (hasPathAux g e f nb acc.2).1 = false := hstep_eq ▸ hsf
                    obtain ⟨_, hclo'⟩ := ih nb acc.2 hacc hnbv hrf
                    exact hmono (hstep_eq ▸ hclo' x (hstep_eq ▸ hx1) hxa y hy)
                · exact hclo x hx hx1 y hy
        have hmono0 := foldl_hpStep_mono g e f (adjGet g n) (false, insert n vis)
        obtain ⟨_, hmem, hclo⟩ := foldSpec (adjGet g n) (false, insert n vis) hcard' hfalse
        refine ⟨hmono0 (Finset.mem_insert_self n vis), ?_⟩
        intro x hx hxv y hy
        by_cases hxn : x = n
        · subst hxn
          exact hmem y hy
        · exact hclo x hx (by simp [hxn, hxv]) y hy

/-- `_has_path(s, e)` returns true exactly on reachable pairs (in particular
true when `s = e`), on every graph state, cyclic ones included. -/
theorem hasPath_iff_reaches (g : Graph α) (s e : α) :
    hasPath g s e = true ↔ Reaches g s e := by
  constructor
  · exact fun h => hasPathAux_sound g e (fuelN g) s ∅ h
  · intro h
    by_contra hf
    have hfalse : (hasPathAux g e (fuelN g) s ∅).1 = false := by
      cases hb : (hasPathAux g e (fuelN g) s ∅).1
      · rfl
      · exact absurd hb hf
    have hcard : (nodesU g \ (∅ : Finset α)).card < fuelN g := by
      rw [Finset.sdiff_empty]
      exact Nat.lt_succ_self _
    obtain ⟨hsmem, hclo⟩ :=
      hasPathAux_false_spec g e (fuelN g) s ∅ hcard (Finset.not_mem_empty s) hfalse
    have hnotE : e ∉ (hasPathAux g e (fuelN g) s ∅).2 := by
      intro hmem
      rcases hasPathAux_new_ne g e (fuelN g) s ∅ e hmem with h0 | h0
      · exact Finset.not_mem_empty e h0
      · exact h0 rfl
    have hall : ∀ y, Reaches g s y → y ∈ (hasPathAux g e (fuelN g) s ∅).2 := by
      intro y hy
      induction hy with
      | refl => exact hsmem
      | tail _ hedge ihy =>
        exact hclo _ ihy (Finset.not_mem_empty _) _ hedge
    exact hnotE (hall e h)

/-! ### The DAG edge-insertion wrapper and the acyclicity invariant -/

theorem hasPath_self (g : Graph α) (x : α) : hasPath g x x = true := by
  show (hasPathAux g x ((nodesU g).card + 1) x ∅).1 = true
  rw [hasPathAux_succ, if_pos rfl]

theorem acyclic_of_acyclicB {g : Graph α} (h : acyclicB g = true) : Acyclic g := by
  intro u v huv hvu
  have hne : adjGet g u ≠ [] := fun he => by simp [Edge, he] at huv
  have hentry := exists_entry_of_adjGet_ne_nil hne
  unfold acyclicB at h
  rw [List.all_eq_true] at h
  have h2 := h _ hentry
  rw [List.all_eq_true] at h2
  have h3 := h2 v huv
  have ht := (hasPath_iff_reaches g v u).2 hvu
  simp [ht] at h3

theorem edge_addNode {g : Graph α} {n x y : α} :
    Edge (addNode g n) x y ↔ Edge g x y := by
  unfold Edge
  rw [adjGet_addNode]

theorem reaches_addNode {g : Graph α} {n x y : α} :
    Reaches (addNode g n) x y ↔ Reaches g x y :=
  ⟨Relation.ReflTransGen.mono fun _ _ h => edge_addNode.1 h,
    Relation.ReflTransGen.mono fun _ _ h => edge_addNode.2 h⟩

theorem acyclic_addNode {g : Graph α} (h : Acyclic g) (n : α) :
    Acyclic (addNode g n) := by
  intro u v huv hvu
  exact h u v (edge_addNode.1 huv) (reaches_addNode.1 hvu)

theorem reaches_addEdge_elim {g : Graph α} {u v x y : α}
    (h : Reaches (addEdge g u v) x y) :
    Reaches g x y ∨ (Reaches g x u ∧ Reaches g v y) := by
  induction h with
  | refl => exact Or.inl Relation.ReflTransGen.refl
  | tail _ hedge ihr =>
    rcases edge_addEdge.1 hedge with he | ⟨rfl, rfl⟩
    · rcases ihr with hxb | ⟨hxu, hvb⟩
      · exact Or.inl (Relation.ReflTransGen.tail hxb he)
      · exact Or.inr ⟨hxu, Relation.ReflTransGen.tail hvb he⟩
    · rcases ihr with hxb | ⟨hxu, _⟩
      · exact Or.inr ⟨hxb, Relation.ReflTransGen.refl⟩
      · exact Or.inr ⟨hxu, Relation.ReflTransGen.refl⟩

theorem reaches_of_reaches_addEdge_base {g : Graph α} {u v x y : α}
    (h : Reaches g x y) : Reaches (addEdge g u v) x y :=
  Relation.ReflTransGen.mono (fun _ _ he => edge_addEdge.2 (Or.inl he)) h

theorem acyclic_addEdge {g : Graph α} {u v : α} (hg : Acyclic g)
    (hvu : ¬ Reaches g v u) : Acyclic (addEdge g u v) := by
  intro a b hab hba
  rcases edge_addEdge.1 hab with he | ⟨rfl, rfl⟩
  · rcases reaches_addEdge_elim hba with hr | ⟨hbu, hva⟩
    · exact hg a b he hr
    · exact hvu (Relation.ReflTransGen.trans hva
        (Relation.ReflTransGen.trans (Relation.ReflTransGen.head he Relation.ReflTransGen.refl) hbu))
  · rcases reaches_addEdge_elim hba with hr | ⟨hbu, _⟩
    · exact hvu hr
    · exact hvu hbu

theorem acyclic_nil : Acyclic ([] : Graph α) := by
  intro u v huv _
  simp [Edge, adjGet] at huv

theorem acyclic_dagAddEdge {g : Graph α} (hg : Acyclic g) (u v : α) :
    Acyclic (dagAddEdge g u v).1 := by
  unfold dagAddEdge
  by_cases h : hasPath g v u = true
  · rw [if_pos h]
    exact hg
  · rw [if_neg h]
    exact acyclic_addEdge hg fun hre => h ((hasPath_iff_reaches g v u).2 hre)

/-! ### The depth-first visit engine: `topsort`'s `visit` and `dfs` -/

theorem visitNode_zero (g : Graph α) (n : α) (s : VState α) :
    visitNode g 0 n s = s := rfl

theorem visitNode_succ (g : Graph α) (f : Nat) (n : α) (s : VState α) :
    visitNode g (f + 1) n s =
      if n ∈ s.vis then s
      else
        ⟨(visitList g f (adjGet g n) ⟨insert n s.vis, s.pre ++ [n], s.post⟩).vis,
         (visitList g f (adjGet g n) ⟨insert n s.vis, s.pre ++ [n], s.post⟩).pre,
         (visitList g f (adjGet g n) ⟨insert n s.vis, s.pre ++ [n], s.post⟩).post ++ [n]⟩ := rfl

theorem visitList_nil (g : Graph α) (f : Nat) (s : VState α) :
    visitList g f [] s = s := rfl

theorem visitList_cons (g : Graph α) (f : Nat) (n : α) (ns : List α) (s : VState α) :
    visitList g f (n :: ns) s = visitList g f ns (visitNode g f n s) := rfl

/-- Growth of one visit step: the visited set only grows, and the two output
sequences grow by appending. -/
def VGrows (s r : VState α) : Prop :=
  s.vis ⊆ r.vis ∧ (∃ d, r.pre = s.pre ++ d) ∧ ∃ d, r.post = s.post ++ d

theorem VGrows.refl (s : VState α) : VGrows s s :=
  ⟨Finset.Subset.refl _, ⟨[], by simp⟩, ⟨[], by simp⟩⟩

theorem VGrows.trans {s t r : VState α} (h1 : VGrows s t) (h2 : VGrows t r) :
    VGrows s r := by
  obtain ⟨hv1, ⟨d1, hd1⟩, ⟨e1, he1⟩⟩ := h1
  obtain ⟨hv2, ⟨d2, hd2⟩, ⟨e2, he2⟩⟩ := h2
  exact ⟨Finset.Subset.trans hv1 hv2,
    ⟨d1 ++ d2, by rw [hd2, hd1, List.append_assoc]⟩,
    ⟨e1 ++ e2, by rw [he2, he1, List.append_assoc]⟩⟩

theorem visitList_grows_of_node (g : Graph α) (f : Nat)
    (hnode : ∀ (n : α) (s : VState α), VGrows s (visitNode g f n s)) :
    ∀ (ns : List α) (s : VState α), VGrows s (visitList g f ns s) := by
  intro ns
  induction ns with
  | nil => intro s; exact VGrows.refl s
  | cons n ns ih =>
    intro s
    rw [visitList_cons]
    exact VGrows.trans (hnode n s) (ih (visitNode g f n s))

theorem visitNode_grows (g : Graph α) :
    ∀ (f : Nat) (n : α) (s : VState α), VGrows s (visitNode g f n s) := by
  intro f
  induction f with
  | zero => intro n s; exact VGrows.refl s
  | succ f ih =>
    intro n s
    rw [visitNode_succ]
    by_cases hn : n ∈ s.vis
    · rw [if_pos hn]; exact VGrows.refl s
    · rw [if_neg hn]
      obtain ⟨hv, ⟨d1, hd1⟩, ⟨d2, hd2⟩⟩ :=
        visitList_grows_of_node g f ih (adjGet g n) ⟨insert n s.vis, s.pre ++ [n], s.post⟩
      refine ⟨Finset.Subset.trans (Finset.subset_insert n s.vis) hv,
        ⟨[n] ++ d1, by rw [hd1]; simp⟩, ⟨d2 ++ [n], by rw [hd2]; simp⟩⟩

theorem visitList_grows (g : Graph α) (f : Nat) :
    ∀ (ns : List α) (s : VState α), VGrows s (visitList g f ns s) :=
  visitList_grows_of_node g f (visitNode_grows g f)

/-- Full description of one (sufficiently fuelled) visit step from state `s`
to state `r`: `dp` and `dq` are the nodes newly emitted to `pre` and `post`;
they are the same set, are exactly the newly visited nodes, are fresh,
duplicate-free, drawn from the graph's nodes, and each newly visited node has
all its out-neighbors visited afterwards. -/
structure VisitDelta (g : Graph α) (s r : VState α) (dp dq : List α) : Prop where
  pre_eq : r.pre = s.pre ++ dp
  post_eq : r.post = s.post ++ dq
  nodup_p : dp.Nodup
  nodup_q : dq.Nodup
  same : ∀ x, x ∈ dp ↔ x ∈ dq
  fresh : ∀ x ∈ dp, x ∉ s.vis
  inU : ∀ x ∈ dp, x ∈ nodesU g
  viseq : ∀ x, x ∈ r.vis ↔ x ∈ s.vis ∨ x ∈ dp
  closed : ∀ x ∈ dp, ∀ y ∈ adjGet g x, y ∈ r.vis

theorem VisitDelta.vis_mono {g : Graph α} {s r : VState α} {dp dq : List α}
    (h : VisitDelta g s r dp dq) : s.vis ⊆ r.vis :=
  fun x hx => (h.viseq x).2 (Or.inl hx)

theorem VisitDelta.nil (g : Graph α) (s : VState α) : VisitDelta g s s [] [] where
  pre_eq := by simp
  post_eq := by simp
  nodup_p := List.nodup_nil
  nodup_q := List.nodup_nil
  same := by simp
  fresh := by simp
  inU := by simp
  viseq := by simp
  closed := by simp

theorem VisitDelta.comp {g : Graph α} {s t r : VState α} {dp dq dp' dq' : List α}
    (h1 : VisitDelta g s t dp dq) (h2 : VisitDelta g t r dp' dq') :
    VisitDelta g s r (dp ++ dp') (dq ++ dq') where
  pre_eq := by rw [h2.pre_eq, h1.pre_eq, List.append_assoc]
  post_eq := by rw [h2.post_eq, h1.post_eq, List.append_assoc]
  nodup_p := by
    refine List.Nodup.append h1.nodup_p h2.nodup_p ?_
    intro x hx hx'
    exact h2.fresh x hx' ((h1.viseq x).2 (Or.inr hx))
  nodup_q := by
    refine List.Nodup.append h1.nodup_q h2.nodup_q ?_
    intro x hx hx'
    exact h2.fresh x ((h2.same x).2 hx') ((h1.viseq x).2 (Or.inr ((h1.same x).2 hx)))
  same := by
    intro x
    simp only [List.mem_append]
    rw [h1.same, h2.same]
  fresh := by
    intro x hx
    rcases List.mem_append.1 hx with h | h
    · exact h1.fresh x h
    · exact fun hs => h2.fresh x h (h1.vis_mono hs)
  inU := by
    intro x hx
    rcases List.mem_append.1 hx with h | h
    · exact h1.inU x h
    · exact h2.inU x h
  viseq := by
    intro x
    rw [h2.viseq, h1.viseq]
    simp only [List.mem_append]
    tauto
  closed := by
    intro x hx y hy
    rcases List.mem_append.1 hx with h | h
    · exact h2.vis_mono (h1.closed x h y hy)
    · exact h2.closed x h y hy

theorem visitList_spec_of_node (g : Graph α) (f : Nat)
    (hnode : ∀ (n : α) (s : VState α), (nodesU g \ s.vis).card < f → n ∈ nodesU g →
      ∃ dp dq, VisitDelta g s (visitNode g f n s) dp dq ∧
        n ∈ (visitNode g f n s).vis ∧ ∀ x ∈ dp, Reaches g n x) :
    ∀ (ns : List α) (s : VState α), (nodesU g \ s.vis).card < f →
      (∀ n ∈ ns, n ∈ nodesU g) →
      ∃ dp dq, VisitDelta g s (visitList g f ns s) dp dq ∧
        (∀ n ∈ ns, n ∈ (visitList g f ns s).vis) ∧
        ∀ x ∈ dp, ∃ n ∈ ns, Reaches g n x := by
  intro ns
  induction ns with
  | nil =>
    intro s _ _
    exact ⟨[], [], VisitDelta.nil g s, by simp, by simp⟩
  | cons n ns ih =>
    intro s hcard hns
    rw [visitList_cons]
    obtain ⟨dp1, dq1, hd1, hn1, hr1⟩ := hnode n s hcard (hns n (List.mem_cons_self n ns))
    have hcard' : (nodesU g \ (visitNode g f n s).vis).card < f :=
      lt_of_le_of_lt (card_sdiff_le_of_subset hd1.vis_mono) hcard
    obtain ⟨dp2, dq2, hd2, hn2, hr2⟩ := ih (visitNode g f n s) hcard'
      (fun m hm => hns m (List.mem_cons_of_mem n hm))
    refine ⟨dp1 ++ dp2, dq1 ++ dq2, hd1.comp hd2, ?_, ?_⟩
    · intro m hm
      rcases List.mem_cons.1 hm with rfl | hml
      · exact hd2.vis_mono hn1
      · exact hn2 m hml
    · intro x hx
      rcases List.mem_append.1 hx with h | h
      · exact ⟨n, List.mem_cons_self n ns, hr1 x h⟩
      · obtain ⟨m, hm, hmr⟩ := hr2 x h
        exact ⟨m, List.mem_cons_of_mem n hm, hmr⟩

theorem visitNode_spec (g : Graph α) :
    ∀ (f : Nat) (n : α) (s : VState α), (nodesU g \ s.vis).card < f → n ∈ nodesU g →
      ∃ dp dq, VisitDelta g s (visitNode g f n s) dp dq ∧
        n ∈ (visitNode g f n s).vis ∧ ∀ x ∈ dp, Reaches g n x := by
  intro f
  induction f with
  | zero =>
    intro n s hcard
    exact absurd hcard (by simp)
  | succ f ih =>
    intro n s hcard hnU
    rw [visitNode_succ]
    by_cases hn : n ∈ s.vis
    · rw [if_pos hn]
      exact ⟨[], [], VisitDelta.nil g s, hn, by simp⟩
    · rw [if_neg hn]
      have hcard' : (nodesU g \ insert n s.vis).card < f :=
        lt_of_lt_of_le (card_sdiff_insert_lt hnU hn) (Nat.lt_succ_iff.1 hcard)
      obtain ⟨dp1, dq1, hd1, hmem1, hr1⟩ :=
        visitList_spec_of_node g f ih (adjGet g n)
          ⟨insert n s.vis, s.pre ++ [n], s.post⟩ hcard'
          (fun m hm => mem_nodesU_of_mem_adjGet hm)
      set s1 := visitList g f (adjGet g n) ⟨insert n s.vis, s.pre ++ [n], s.post⟩ with hs1
      have hnfresh : n ∉ dp1 := fun hc => hd1.fresh n hc (Finset.mem_insert_self n s.vis)
      have hnfreshq : n ∉ dq1 := fun hc => hnfresh ((hd1.same n).2 hc)
      have hvis1 : ∀ x, x ∈ s1.vis ↔ x ∈ insert n s.vis ∨ x ∈ dp1 := hd1.viseq
      refine ⟨n :: dp1, dq1 ++ [n], ?_, ?_, ?_⟩
      · refine ⟨?_, ?_, ?_, ?_, ?_, ?_, ?_, ?_, ?_⟩
        · show s1.pre = s.pre ++ (n :: dp1)
          rw [hd1.pre_eq]
          simp
        · show s1.post ++ [n] = s.post ++ (dq1 ++ [n])
          rw [hd1.post_eq]
          simp
        · exact List.nodup_cons.2 ⟨hnfresh, hd1.nodup_p⟩
        · refine List.Nodup.append hd1.nodup_q (List.nodup_singleton n) ?_
          intro x hx hx'
          rw [List.mem_singleton] at hx'
          exact hnfreshq (hx' ▸ hx)
        · intro x
          simp only [List.mem_cons, List.mem_append, List.mem_singleton]
          rw [hd1.same x]
          tauto
        · intro x hx
          rcases List.mem_cons.1 hx with rfl | hx'
          · exact hn
          · exact fun hs => hd1.fresh x hx' (Finset.mem_insert_of_mem hs)
        · intro x hx
          rcases List.mem_cons.1 hx with rfl | hx'
          · exact hnU
          · exact hd1.inU x hx'
        · intro x
          show x ∈ s1.vis ↔ _
          rw [hvis1 x, Finset.mem_insert]
          simp only [List.mem_cons]
          tauto
        · intro x hx y hy
          show y ∈ s1.vis
          rcases List.mem_cons.1 hx with rfl | hx'
          · exact hmem1 y hy
          · exact hd1.closed x hx' y hy
      · show n ∈ s1.vis
        exact hd1.vis_mono (Finset.mem_insert_self n s.vis)
      · intro x hx
        rcases List.mem_cons.1 hx with rfl | hx'
        · exact Relation.ReflTransGen.refl
        · obtain ⟨m, hm, hmr⟩ := hr1 x hx'
          exact Relation.ReflTransGen.head hm hmr

theorem visitList_spec (g : Graph α) (f : Nat) :
    ∀ (ns : List α) (s : VState α), (nodesU g \ s.vis).card < f →
      (∀ n ∈ ns, n ∈ nodesU g) →
      ∃ dp dq, VisitDelta g s (visitList g f ns s) dp dq ∧
        (∀ n ∈ ns, n ∈ (visitList g f ns s).vis) ∧
        ∀ x ∈ dp, ∃ n ∈ ns, Reaches g n x :=
  visitList_spec_of_node g f (visitNode_spec g f)

/-- A post-order output list together with the edge relation: every entry's
out-neighbors occur strictly earlier in the list. -/
def PostOrdered (g : Graph α) (l : List α) : Prop :=
  ∀ (i : Nat) (u : α), l[i]? = some u → ∀ v ∈ adjGet g u, v ∈ l.take i

theorem postOrdered_nil (g : Graph α) : PostOrdered g [] := by
  intro i u hi
  simp at hi

theorem postOrdered_append {g : Graph α} {l : List α} {n : α}
    (h : PostOrdered g l) (hn : ∀ y ∈ adjGet g n, y ∈ l) :
    PostOrdered g (l ++ [n]) := by
  intro i u hi v hv
  rcases lt_trichotomy i l.length with hlt | heq | hgt
  · rw [List.getElem?_append_left hlt] at hi
    rw [List.take_append_of_le_length (le_of_lt hlt)]
    exact h i u hi v hv
  · subst heq
    rw [List.getElem?_concat_length] at hi
    have hnu : n = u := by injection hi
    rw [List.take_append_of_le_length (le_refl _), List.take_length]
    exact hn v (hnu ▸ hv)
  · have hnone : (l ++ [n])[i]? = none := by
      apply List.getElem?_eq_none
      simp only [List.length_append, List.length_singleton]
      omega
    rw [hnone] at hi
    exact absurd hi (by simp)

theorem visitList_topo_of_node (g : Graph α) (f : Nat)
    (hnode : ∀ (n : α) (s : VState α), (nodesU g \ s.vis).card < f → n ∈ nodesU g →
      (∀ x ∈ s.post, x ∈ s.vis) → PostOrdered g s.post →
      (∀ y, y ∈ s.vis → y ∉ s.post → Reaches g y n) →
      PostOrdered g (visitNode g f n s).post) :
    ∀ (ns : List α) (s : VState α), (nodesU g \ s.vis).card < f →
      (∀ n ∈ ns, n ∈ nodesU g) →
      (∀ x ∈ s.post, x ∈ s.vis) → PostOrdered g s.post →
      (∀ y, y ∈ s.vis → y ∉ s.post → ∀ m ∈ ns, Reaches g y m) →
      PostOrdered g (visitList g f ns s).post := by
  intro ns
  induction ns with
  | nil =>
    intro s _ _ _ hpo _
    exact hpo
  | cons n ns ih =>
    intro s hcard hns hpv hpo hgray
    rw [visitList_cons]
    obtain ⟨dp, dq, hd, _, _⟩ :=
      visitNode_spec g f n s hcard (hns n (List.mem_cons_self n ns))
    have hpo1 : PostOrdered g (visitNode g f n s).post :=
      hnode n s hcard (hns n (List.mem_cons_self n ns)) hpv hpo
        (fun y hy hyp => hgray y hy hyp n (List.mem_cons_self n ns))
    have hcard1 : (nodesU g \ (visitNode g f n s).vis).card < f :=
      lt_of_le_of_lt (card_sdiff_le_of_subset hd.vis_mono) hcard
    have hpv1 : ∀ x ∈ (visitNode g f n s).post, x ∈ (visitNode g f n s).vis := by
      intro x hx
      rw [hd.post_eq] at hx
      rcases List.mem_append.1 hx with hx' | hx'
      · exact hd.vis_mono (hpv x hx')
      · exact (hd.viseq x).2 (Or.inr ((hd.same x).2 hx'))
    have hgray1 : ∀ y, y ∈ (visitNode g f n s).vis → y ∉ (visitNode g f n s).post →
        ∀ m ∈ ns, Reaches g y m := by
      intro y hy hyp m hm
      rw [hd.post_eq] at hyp
      simp only [List.mem_append, not_or] at hyp
      have hyold : y ∈ s.vis := by
        rcases (hd.viseq y).1 hy with h' | h'
        · exact h'
        · exact absurd ((hd.same y).1 h') hyp.2
      exact hgray y hyold hyp.1 m (List.mem_cons_of_mem n hm)
    exact ih (visitNode g f n s) hcard1
      (fun m hm => hns m (List.mem_cons_of_mem n hm)) hpv1 hpo1 hgray1

theorem visitNode_topo (g : Graph α) (hac : Acyclic g) :
    ∀ (f : Nat) (n : α) (s : VState α), (nodesU g \ s.vis).card < f → n ∈ nodesU g →
      (∀ x ∈ s.post, x ∈ s.vis) → PostOrdered g s.post →
      (∀ y, y ∈ s.vis → y ∉ s.post → Reaches g y n) →
      PostOrdered g (visitNode g f n s).post := by
  intro f
  induction f with
  | zero =>
    intro n s hcard
    exact absurd hcard (by simp)
  | succ f ih =>
    intro n s hcard hnU hpv hpo hgray
    rw [visitNode_succ]
    by_cases hn : n ∈ s.vis
    · rw [if_pos hn]
      exact hpo
    · rw [if_neg hn]
      show PostOrdered g
        ((visitList g f (adjGet g n) ⟨insert n s.vis, s.pre ++ [n], s.post⟩).post ++ [n])
      have hcard' : (nodesU g \ insert n s.vis).card < f :=
        lt_of_lt_of_le (card_sdiff_insert_lt hnU hn) (Nat.lt_succ_iff.1 hcard)
      have hgray' : ∀ y, y ∈ (insert n s.vis : Finset α) → y ∉ s.post →
          ∀ m ∈ adjGet g n, Reaches g y m := by
        intro y hy hyp m hm
        rcases Finset.mem_insert.1 hy with rfl | hys
        · exact Relation.ReflTransGen.head hm Relation.ReflTransGen.refl
        · exact Relation.ReflTransGen.tail (hgray y hys hyp) hm
      have hpv' : ∀ x ∈ s.post, x ∈ (insert n s.vis : Finset α) :=
        fun x hx => Finset.mem_insert_of_mem (hpv x hx)
      have hpoInner :
          PostOrdered g (visitList g f (adjGet g n) ⟨insert n s.vis, s.pre ++ [n], s.post⟩).post :=
        visitList_topo_of_node g f ih (adjGet g n) ⟨insert n s.vis, s.pre ++ [n], s.post⟩
          hcard' (fun m hm => mem_nodesU_of_mem_adjGet hm) hpv' hpo hgray'
      obtain ⟨dp, dq, hd, hmem, _⟩ :=
        visitList_spec g f (adjGet g n) ⟨insert n s.vis, s.pre ++ [n], s.post⟩
          hcard' (fun m hm => mem_nodesU_of_mem_adjGet hm)
      refine postOrdered_append hpoInner ?_
      intro y hy
      have hyvis := hmem y hy
      rcases (hd.viseq y).1 hyvis with hys' | hydp
      · rcases Finset.mem_insert.1 hys' with hyn | hyold
        · refine absurd ?_ (hac n y hy)
          rw [hyn]
          exact Relation.ReflTransGen.refl
        · by_cases hyp : y ∈ s.post
          · rw [hd.post_eq]
            exact List.mem_append.2 (Or.inl hyp)
          · exact absurd (hgray y hyold hyp) (hac n y hy)
      · rw [hd.post_eq]
        exact List.mem_append.2 (Or.inr ((hd.same y).1 hydp))

theorem mem_take_index {l : List α} {m : Nat} {x : α} (h : x ∈ l.take m) :
    ∃ k, k < m ∧ l[k]? = some x := by
  obtain ⟨k, hk, hx⟩ := List.mem_iff_getElem.1 h
  have hkm : k < m := lt_of_lt_of_le hk (by simp [List.length_take])
  have hkl : k < l.length := lt_of_lt_of_le hk (by simp [List.length_take])
  refine ⟨k, hkm, ?_⟩
  rw [List.getElem?_eq_getElem hkl, ← hx]
  exact congrArg some (List.getElem_take l).symm

theorem getElem?_some_unique {l : List α} (h : l.Nodup) {k m : Nat} {x : α}
    (hk : l[k]? = some x) (hm : l[m]? = some x) : k = m := by
  obtain ⟨hk1, hk2⟩ := List.getElem?_eq_some.1 hk
  obtain ⟨hm1, hm2⟩ := List.getElem?_eq_some.1 hm
  exact (List.Nodup.getElem_inj_iff h).1 (by rw [hk2, hm2])

theorem topsort_perm_keys (g : Graph α) (hc : Closed g) (hnd : (keys g).Nodup) :
    (topsort g).Perm (keys g) := by
  have hcard : (nodesU g \ (∅ : Finset α)).card < fuelN g := by
    rw [Finset.sdiff_empty]
    exact Nat.lt_succ_self _
  obtain ⟨dp, dq, hd, hmem, _⟩ :=
    visitList_spec g (fuelN g) (keys g) ⟨∅, [], []⟩ hcard
      (fun n hn => mem_nodesU_of_mem_keys hn)
  have hpost : (visitList g (fuelN g) (keys g) ⟨∅, [], []⟩).post = dq := by
    have h := hd.post_eq
    simpa using h
  have hsets : ∀ x, x ∈ dq ↔ x ∈ keys g := by
    intro x
    rw [← hd.same x]
    constructor
    · intro hx
      have h := hd.inU x hx
      rw [nodesU_eq_keys_of_closed hc] at h
      simpa using h
    · intro hx
      have hxv := hmem x hx
      rcases (hd.viseq x).1 hxv with h0 | h0
      · exact absurd h0 (Finset.not_mem_empty x)
      · exact h0
  have hperm : dq.Perm (keys g) := by
    refine List.perm_of_nodup_nodup_toFinset_eq hd.nodup_q hnd ?_
    ext x
    simp [hsets x]
  show (visitList g (fuelN g) (keys g) ⟨∅, [], []⟩).post.reverse.Perm (keys g)
  rw [hpost]
  exact (List.reverse_perm dq).trans hperm

theorem topsort_order (g : Graph α)
    (hac : Acyclic g) : ∀ u v, Edge g u v → ∀ (i j : Nat),
      (topsort g)[i]? = some u → (topsort g)[j]? = some v → i < j := by
  have hcard : (nodesU g \ (∅ : Finset α)).card < fuelN g := by
    rw [Finset.sdiff_empty]
    exact Nat.lt_succ_self _
  have hkeysU : ∀ n ∈ keys g, n ∈ nodesU g := fun n hn => mem_nodesU_of_mem_keys hn
  obtain ⟨dp, dq, hd, hmem, _⟩ :=
    visitList_spec g (fuelN g) (keys g) ⟨∅, [], []⟩ hcard hkeysU
  have hpost : (visitList g (fuelN g) (keys g) ⟨∅, [], []⟩).post = dq := by
    have h := hd.post_eq
    simpa using h
  have hnodup : (visitList g (fuelN g) (keys g) ⟨∅, [], []⟩).post.Nodup := by
    rw [hpost]
    exact hd.nodup_q
  have hpo : PostOrdered g (visitList g (fuelN g) (keys g) ⟨∅, [], []⟩).post := by
    refine visitList_topo_of_node g (fuelN g) (visitNode_topo g hac (fuelN g))
      (keys g) ⟨∅, [], []⟩ hcard hkeysU ?_ (postOrdered_nil g) ?_
    · intro x hx
      exact absurd hx (List.not_mem_nil x)
    · intro y hy
      exact absurd hy (Finset.not_mem_empty y)
  intro u v huv i j hi hj
  set post := (visitList g (fuelN g) (keys g) ⟨∅, [], []⟩).post with hpostdef
  have htop : topsort g = post.reverse := rfl
  rw [htop] at hi hj
  have hi' : i < post.length := by
    have h := (List.getElem?_eq_some.1 hi).1
    simpa using h
  have hj' : j < post.length := by
    have h := (List.getElem?_eq_some.1 hj).1
    simpa using h
  rw [List.getElem?_reverse hi'] at hi
  rw [List.getElem?_reverse hj'] at hj
  have hv : v ∈ post.take (post.length - 1 - i) := hpo _ u hi v huv
  obtain ⟨k, hk, hkv⟩ := mem_take_index hv
  have hkeq : k = post.length - 1 - j := getElem?_some_unique hnodup hkv hj
  omega

theorem dfs_reach_spec (g : Graph α) (s : α) (hs : s ∈ keys g) :
    (dfs g s).Nodup ∧ ∀ y, y ∈ dfs g s ↔ Reaches g s y := by
  have hcard : (nodesU g \ (∅ : Finset α)).card < fuelN g := by
    rw [Finset.sdiff_empty]
    exact Nat.lt_succ_self _
  obtain ⟨dp, dq, hd, hsvis, hreach⟩ :=
    visitNode_spec g (fuelN g) s ⟨∅, [], []⟩ hcard (mem_nodesU_of_mem_keys hs)
  have hpre : dfs g s = dp := by
    show (visitNode g (fuelN g) s ⟨∅, [], []⟩).pre = dp
    have h := hd.pre_eq
    simpa using h
  have hvis_iff : ∀ x, x ∈ (visitNode g (fuelN g) s ⟨∅, [], []⟩).vis ↔ x ∈ dp := by
    intro x
    rw [hd.viseq x]
    simp
  rw [hpre]
  refine ⟨hd.nodup_p, ?_⟩
  intro y
  constructor
  · exact hreach y
  · intro hy
    rw [← hvis_iff]
    induction hy with
    | refl => exact hsvis
    | tail _ hedge ihy =>
      exact hd.closed _ ((hvis_iff _).1 ihy) _ hedge

/-! ### The `bfs` loop: unfolding lemmas -/

theorem bfsLoop_zero (g : Graph α) (q : List α) (vis : Finset α) (out : List α) :
    bfsLoop g 0 q vis out = out := rfl

theorem bfsLoop_nil (g : Graph α) (f : Nat) (vis : Finset α) (out : List α) :
    bfsLoop g (f + 1) [] vis out = out := rfl

theorem bfsLoop_cons (g : Graph α) (f : Nat) (n : α) (q : List α) (vis : Finset α)
    (out : List α) :
    bfsLoop g (f + 1) (n :: q) vis out =
      bfsLoop g f ((adjGet g n).foldl bfsEnq (vis, q)).2
        ((adjGet g n).foldl bfsEnq (vis, q)).1 (out ++ [n]) := rfl

/-! ### Edge-distance lemmas for the BFS layering property -/

theorem reachN_zero {g : Graph α} {x y : α} (h : ReachN g x y 0) : x = y := by
  cases h
  rfl

theorem reaches_iff_reachN {g : Graph α} {x y : α} :
    Reaches g x y ↔ ∃ n, ReachN g x y n := by
  constructor
  · intro h
    induction h with
    | refl => exact ⟨0, ReachN.refl x⟩
    | tail _ hedge ihr =>
      obtain ⟨n, hn⟩ := ihr
      exact ⟨n + 1, ReachN.tail hn hedge⟩
  · rintro ⟨n, hn⟩
    induction hn with
    | refl => exact Relation.ReflTransGen.refl
    | tail _ hedge ihr => exact Relation.ReflTransGen.tail ihr hedge

theorem dist_reachN {g : Graph α} {s y : α} (h : Reaches g s y) :
    ReachN g s y (dist g s y) := by
  have hne : {n | ReachN g s y n}.Nonempty := reaches_iff_reachN.1 h
  exact Nat.sInf_mem hne

theorem dist_le {g : Graph α} {s y : α} {n : Nat} (h : ReachN g s y n) :
    dist g s y ≤ n :=
  Nat.sInf_le h

theorem dist_self (g : Graph α) (s : α) : dist g s s = 0 :=
  Nat.le_zero.1 (dist_le (ReachN.refl s))

theorem dist_le_edge {g : Graph α} {s x y : α} (hx : Reaches g s x)
    (hxy : Edge g x y) : dist g s y ≤ dist g s x + 1 :=
  dist_le (ReachN.tail (dist_reachN hx) hxy)

theorem dist_eq_zero_imp {g : Graph α} {s y : α} (h : Reaches g s y)
    (h0 : dist g s y = 0) : s = y :=
  reachN_zero (h0 ▸ dist_reachN h)

theorem dist_succ_decomp {g : Graph α} {s y : α} {d : Nat} (h : Reaches g s y)
    (hd : dist g s y = d + 1) :
    ∃ p, Edge g p y ∧ Reaches g s p ∧ dist g s p ≤ d := by
  have hr := dist_reachN h
  rw [hd] at hr
  cases hr with
  | tail hp hedge =>
    exact ⟨_, hedge, reaches_iff_reachN.2 ⟨_, hp⟩, dist_le hp⟩

/-! ### Characterizing the `bfs` neighbor loop -/

/-- The sequence of first occurrences of not-yet-visited elements of `l`:
exactly the nodes `bfs`'s neighbor loop enqueues. -/
def newOf (l : List α) (vis : Finset α) : List α :=
  match l with
  | [] => []
  | x :: t => if x ∈ vis then newOf t vis else x :: newOf t (insert x vis)

theorem foldl_bfsEnq_eq (l : List α) :
    ∀ (vis : Finset α) (q : List α),
      l.foldl bfsEnq (vis, q) = (vis ∪ (newOf l vis).toFinset, q ++ newOf l vis) := by
  induction l with
  | nil =>
    intro vis q
    simp [newOf]
  | cons x t ih =>
    intro vis q
    rw [List.foldl_cons]
    by_cases hx : x ∈ vis
    · have hstep : bfsEnq (vis, q) x = (vis, q) := by
        unfold bfsEnq
        simp [hx]
      rw [hstep, ih]
      simp [newOf, hx]
    · have hstep : bfsEnq (vis, q) x = (insert x vis, q ++ [x]) := by
        unfold bfsEnq
        simp [hx]
      rw [hstep, ih]
      simp only [newOf, if_neg hx]
      have h1 : insert x vis ∪ (newOf t (insert x vis)).toFinset
          = vis ∪ (x :: newOf t (insert x vis)).toFinset := by
        ext y
        simp only [Finset.mem_union, Finset.mem_insert, List.mem_toFinset, List.mem_cons]
        tauto
      have h2 : q ++ [x] ++ newOf t (insert x vis) = q ++ x :: newOf t (insert x vis) := by
        simp
      rw [h1, h2]

theorem mem_newOf {l : List α} : ∀ {vis : Finset α} {x : α},
    x ∈ newOf l vis ↔ x ∈ l ∧ x ∉ vis := by
  induction l with
  | nil => intro vis x; simp [newOf]
  | cons a t ih =>
    intro vis x
    by_cases ha : a ∈ vis
    · simp only [newOf, if_pos ha, ih, List.mem_cons]
      constructor
      · rintro ⟨hx, hv⟩
        exact ⟨Or.inr hx, hv⟩
      · rintro ⟨hx | hx, hv⟩
        · exact absurd (hx ▸ ha) hv
        · exact ⟨hx, hv⟩
    · simp only [newOf, if_neg ha, List.mem_cons, ih, Finset.mem_insert]
      constructor
      · rintro (rfl | ⟨hx, hv⟩)
        · exact ⟨Or.inl rfl, ha⟩
        · exact ⟨Or.inr hx, fun hc => hv (Or.inr hc)⟩
      · rintro ⟨hx | hx, hv⟩
        · exact Or.inl hx
        · by_cases hxa : x = a
          · exact Or.inl hxa
          · exact Or.inr ⟨hx, by simp [Finset.mem_insert, hxa, hv]⟩

theorem newOf_nodup (l : List α) : ∀ (vis : Finset α), (newOf l vis).Nodup := by
  induction l with
  | nil => intro vis; exact List.nodup_nil
  | cons a t ih =>
    intro vis
    unfold newOf
    split
    · exact ih vis
    · refine List.nodup_cons.2 ⟨?_, ih (insert a vis)⟩
      intro hc
      exact (mem_newOf.1 hc).2 (Finset.mem_insert_self a vis)

/-- The loop invariant of `bfs`: output and queue partition the visited set,
everything visited is reachable, the concatenated output-then-queue sequence
is sorted by edge-distance from `s`, queue distances span at most one layer,
processed nodes have all neighbors visited, unvisited reachable nodes lie
strictly beyond the frontier, and an empty queue means every reachable node
was visited. -/
structure BfsInv (g : Graph α) (s : α) (q : List α) (vis : Finset α)
    (out : List α) : Prop where
  nodup : (out ++ q).Nodup
  viseq : ∀ x, x ∈ vis ↔ x ∈ out ∨ x ∈ q
  smem : s ∈ vis
  reach : ∀ x ∈ vis, Reaches g s x
  sorted : (out ++ q).Pairwise fun a b => dist g s a ≤ dist g s b
  span : ∀ a ∈ q, ∀ b ∈ q, dist g s b ≤ dist g s a + 1
  closed : ∀ x ∈ out, ∀ y ∈ adjGet g x, y ∈ vis
  frontier : ∀ y, Reaches g s y → y ∉ vis → ∀ h ∈ q.head?, dist g s h + 1 ≤ dist g s y
  full : q = [] → ∀ y, Reaches g s y → y ∈ vis

theorem bfsLoop_spec (g : Graph α) (s : α) :
    ∀ (f : Nat) (q : List α) (vis : Finset α) (out : List α),
      BfsInv g s q vis out →
      q.length + (nodesU g \ vis).card < f →
      (bfsLoop g f q vis out).Nodup ∧
      ((bfsLoop g f q vis out).Pairwise fun a b => dist g s a ≤ dist g s b) ∧
      ∀ x, x ∈ bfsLoop g f q vis out ↔ x ∈ out ∨ x ∈ q ∨ (Reaches g s x ∧ x ∉ vis) := by
  intro f
  induction f with
  | zero =>
    intro q vis out _ hmeas
    exact absurd hmeas (by omega)
  | succ f ih =>
    intro q vis out inv hmeas
    cases q with
    | nil =>
      rw [bfsLoop_nil]
      refine ⟨by simpa using inv.nodup, by simpa using inv.sorted, ?_⟩
      intro x
      constructor
      · intro hx
        exact Or.inl hx
      · rintro (hx | hx | ⟨hr, hnv⟩)
        · exact hx
        · exact absurd hx (List.not_mem_nil x)
        · exact absurd (inv.full rfl x hr) hnv
    | cons n q' =>
      set N := newOf (adjGet g n) vis with hNdef
      have hstep : bfsLoop g (f + 1) (n :: q') vis out
          = bfsLoop g f (q' ++ N) (vis ∪ N.toFinset) (out ++ [n]) := by
        rw [bfsLoop_cons, foldl_bfsEnq_eq]
      rw [hstep]
      have hnq : n ∈ (n :: q') := List.mem_cons_self n q'
      have hnvis : n ∈ vis := (inv.viseq n).2 (Or.inr hnq)
      have hreach_n : Reaches g s n := inv.reach n hnvis
      have hNsub : ∀ m ∈ N, m ∈ adjGet g n ∧ m ∉ vis := fun m hm => mem_newOf.1 hm
      have hNreach : ∀ m ∈ N, Reaches g s m := fun m hm =>
        Relation.ReflTransGen.tail hreach_n (hNsub m hm).1
      have hheadn : (n :: q').head? = some n := rfl
      have hNdist : ∀ m ∈ N, dist g s m = dist g s n + 1 := by
        intro m hm
        have hle : dist g s m ≤ dist g s n + 1 := dist_le_edge hreach_n (hNsub m hm).1
        have hge : dist g s n + 1 ≤ dist g s m :=
          inv.frontier m (hNreach m hm) (hNsub m hm).2 n rfl
        omega
      have hsorted := inv.sorted
      rw [List.pairwise_append] at hsorted
      have houtn : ∀ o ∈ out, dist g s o ≤ dist g s n :=
        fun o ho => hsorted.2.2 o ho n hnq
      have hq'n : ∀ a ∈ q', dist g s n ≤ dist g s a :=
        fun a ha => (List.pairwise_cons.1 hsorted.2.1).1 a ha
      have hq'span : ∀ a ∈ q', dist g s a ≤ dist g s n + 1 :=
        fun a ha => inv.span n hnq a (List.mem_cons_of_mem n ha)
      have hNnil_mem : ∀ x ∈ N, x ∉ vis := fun x hx => (hNsub x hx).2
      -- the key frontier-advance argument
      have key : ∀ y, Reaches g s y → y ∉ vis ∪ N.toFinset →
          (∀ p ∈ q', dist g s n + 1 ≤ dist g s p) →
          dist g s n + 2 ≤ dist g s y := by
        intro y hyr hynv hq'lo
        have hynv0 : y ∉ vis := fun hc => hynv (Finset.mem_union_left _ hc)
        have hfront0 : dist g s n + 1 ≤ dist g s y :=
          inv.frontier y hyr hynv0 n rfl
        by_contra hlt
        push_neg at hlt
        have hdy : dist g s y = dist g s n + 1 := by omega
        obtain ⟨p, hpy, hpr, hpd⟩ := dist_succ_decomp hyr hdy
        have hpvis : p ∈ vis := by
          by_contra hpnv
          have := inv.frontier p hpr hpnv n rfl
          omega
        rcases (inv.viseq p).1 hpvis with hpo | hpq
        · exact hynv (Finset.mem_union_left _ (inv.closed p hpo y hpy))
        · rcases List.mem_cons.1 hpq with hpn | hpq'
          · subst hpn
            exact hynv (Finset.mem_union_right _
              (List.mem_toFinset.2 (mem_newOf.2 ⟨hpy, hynv0⟩)))
          · have := hq'lo p hpq'
            omega
      have inv2 : BfsInv g s (q' ++ N) (vis ∪ N.toFinset) (out ++ [n]) := by
        refine
          { nodup := ?_, viseq := ?_, smem := ?_, reach := ?_, sorted := ?_,
            span := ?_, closed := ?_, frontier := ?_, full := ?_ }
        · have hre : (out ++ [n]) ++ (q' ++ N) = (out ++ n :: q') ++ N := by
            simp
          rw [hre]
          refine List.Nodup.append inv.nodup (newOf_nodup _ _) ?_
          intro x hx hxN
          exact (hNsub x hxN).2 ((inv.viseq x).2 (by simpa using hx))
        · intro x
          rw [Finset.mem_union, List.mem_toFinset, inv.viseq x]
          simp only [List.mem_append, List.mem_cons, List.mem_singleton]
          tauto
        · exact Finset.mem_union_left _ inv.smem
        · intro x hx
          rcases Finset.mem_union.1 hx with h | h
          · exact inv.reach x h
          · exact hNreach x (List.mem_toFinset.1 h)
        · have hre2 : (out ++ [n]) ++ (q' ++ N) = (out ++ n :: q') ++ N := by
            simp
          rw [hre2, List.pairwise_append]
          refine ⟨inv.sorted, ?_, ?_⟩
          · refine List.pairwise_of_forall_mem_list ?_
            intro a ha b hb
            rw [hNdist a ha, hNdist b hb]
          · intro a ha b hb
            rw [hNdist b hb]
            rcases List.mem_append.1 ha with ha' | ha'
            · exact le_trans (houtn a ha') (Nat.le_succ _)
            · rcases List.mem_cons.1 ha' with han | ha''
              · rw [han]
                exact Nat.le_succ _
              · exact hq'span a ha''
        · intro a ha b hb
          have hda : dist g s n ≤ dist g s a := by
            rcases List.mem_append.1 ha with h | h
            · exact hq'n a h
            · rw [hNdist a h]
              exact Nat.le_succ _
          have hdb : dist g s b ≤ dist g s n + 1 := by
            rcases List.mem_append.1 hb with h | h
            · exact hq'span b h
            · rw [hNdist b h]
          omega
        · intro x hx y hy
          rcases List.mem_append.1 hx with hxo | hxn
          · exact Finset.mem_union_left _ (inv.closed x hxo y hy)
          · rw [List.mem_singleton] at hxn
            subst hxn
            by_cases hyv : y ∈ vis
            · exact Finset.mem_union_left _ hyv
            · exact Finset.mem_union_right _ (List.mem_toFinset.2 (mem_newOf.2 ⟨hy, hyv⟩))
        · intro y hyr hynv h hh
          have hynv0 : y ∉ vis := fun hc => hynv (Finset.mem_union_left _ hc)
          have hfront0 : dist g s n + 1 ≤ dist g s y :=
            inv.frontier y hyr hynv0 n rfl
          cases hq'eq : q' with
          | nil =>
            rw [hq'eq] at hh
            have hhN : h ∈ N := by
              cases hNl : N with
              | nil =>
                rw [hNl] at hh
                simp at hh
              | cons c t =>
                rw [hNl] at hh
                have hhceq : h = c := by simpa using hh.symm
                rw [hhceq]
                exact List.mem_cons_self c t
            rw [hNdist h hhN]
            refine key y hyr hynv ?_
            intro p hp
            rw [hq'eq] at hp
            exact absurd hp (List.not_mem_nil p)
          | cons c t =>
            rw [hq'eq] at hh
            have hhc : h = c := by simpa using hh.symm
            subst hhc
            have hcq' : h ∈ q' := by
              rw [hq'eq]
              exact List.mem_cons_self h t
            have hcub : dist g s h ≤ dist g s n + 1 := hq'span h hcq'
            by_cases hcd : dist g s h ≤ dist g s n
            · omega
            · have hceq : dist g s h = dist g s n + 1 := by
                have := hq'n h hcq'
                omega
              have hq'lo : ∀ p ∈ q', dist g s n + 1 ≤ dist g s p := by
                intro p hp
                rw [hq'eq] at hp
                rcases List.mem_cons.1 hp with hpc | hpt
                · rw [hpc, ← hceq]
                · have hsq' : (h :: t).Pairwise
                      (fun a b => dist g s a ≤ dist g s b) := by
                    have h2 := (List.pairwise_cons.1 hsorted.2.1).2
                    rw [hq'eq] at h2
                    exact h2
                  have := (List.pairwise_cons.1 hsq').1 p hpt
                  omega
              have := key y hyr hynv hq'lo
              omega
        · intro hq2 y hyr
          have hq'nil : q' = [] := by
            cases hq'c : q' with
            | nil => rfl
            | cons a b =>
              rw [hq'c] at hq2
              simp at hq2
          have hNnil : N = [] := by
            rw [hq'nil] at hq2
            simpa using hq2
          have main : ∀ (d : Nat) (y : α), Reaches g s y → dist g s y = d →
              y ∈ vis ∪ N.toFinset := by
            intro d
            induction d using Nat.strong_induction_on with
            | _ d ihd =>
              intro y hy hdy
              by_cases hyv : y ∈ vis
              · exact Finset.mem_union_left _ hyv
              · cases d with
                | zero =>
                  have hsy := dist_eq_zero_imp hy hdy
                  exact absurd (hsy ▸ inv.smem) hyv
                | succ d2 =>
                  obtain ⟨p, hpy, hpr, hpd⟩ := dist_succ_decomp hy hdy
                  have hp2 : p ∈ vis ∪ N.toFinset :=
                    ihd (dist g s p) (by omega) p hpr rfl
                  have hpv : p ∈ vis := by
                    rcases Finset.mem_union.1 hp2 with h | h
                    · exact h
                    · rw [hNnil] at h
                      simp at h
                  rcases (inv.viseq p).1 hpv with hpo | hpq
                  · exact absurd (inv.closed p hpo y hpy) hyv
                  · rcases List.mem_cons.1 hpq with hpn | hpq'
                    · subst hpn
                      have : y ∈ N := mem_newOf.2 ⟨hpy, hyv⟩
                      rw [hNnil] at this
                      exact absurd this (List.not_mem_nil y)
                    · rw [hq'nil] at hpq'
                      exact absurd hpq' (List.not_mem_nil p)
          exact main (dist g s y) y hyr rfl
      have hNfresh : N.toFinset ⊆ nodesU g \ vis := by
        intro x hx
        rw [List.mem_toFinset] at hx
        exact Finset.mem_sdiff.2
          ⟨mem_nodesU_of_mem_adjGet (hNsub x hx).1, (hNsub x hx).2⟩
      have hcard2 : (nodesU g \ (vis ∪ N.toFinset)).card
          = (nodesU g \ vis).card - N.toFinset.card := by
        have he : nodesU g \ (vis ∪ N.toFinset) = (nodesU g \ vis) \ N.toFinset := by
          ext x
          simp only [Finset.mem_sdiff, Finset.mem_union]
          tauto
        rw [he, Finset.card_sdiff hNfresh]
      have hNlen : N.toFinset.card = N.length :=
        List.toFinset_card_of_nodup (newOf_nodup _ _)
      have hcardle : N.toFinset.card ≤ (nodesU g \ vis).card :=
        Finset.card_le_card hNfresh
      have hmeas2 : (q' ++ N).length + (nodesU g \ (vis ∪ N.toFinset)).card < f := by
        rw [List.length_append, hcard2]
        have hm0 : q'.length + 1 + (nodesU g \ vis).card < f + 1 := by
          simpa [Nat.add_comm, Nat.add_left_comm] using hmeas
        omega
      obtain ⟨hnd, hpw, hmem⟩ := ih (q' ++ N) (vis ∪ N.toFinset) (out ++ [n]) inv2 hmeas2
      refine ⟨hnd, hpw, ?_⟩
      intro x
      rw [hmem x]
      constructor
      · rintro (hx | hx | ⟨hr, hnv⟩)
        · rcases List.mem_append.1 hx with h | h
          · exact Or.inl h
          · rw [List.mem_singleton] at h
            exact Or.inr (Or.inl (h ▸ List.mem_cons_self n q'))
        · rcases List.mem_append.1 hx with h | h
          · exact Or.inr (Or.inl (List.mem_cons_of_mem n h))
          · exact Or.inr (Or.inr ⟨hNreach x h, (hNsub x h).2⟩)
        · exact Or.inr (Or.inr ⟨hr, fun hc => hnv (Finset.mem_union_left _ hc)⟩)
      · rintro (hx | hx | ⟨hr, hnv⟩)
        · exact Or.inl (List.mem_append.2 (Or.inl hx))
        · rcases List.mem_cons.1 hx with hxn | h
          · exact Or.inl (List.mem_append.2 (Or.inr (by rw [hxn]; exact List.mem_singleton.2 rfl)))
          · exact Or.inr (Or.inl (List.mem_append.2 (Or.inl h)))
        · by_cases hxN : x ∈ N
          · exact Or.inr (Or.inl (List.mem_append.2 (Or.inr hxN)))
          · refine Or.inr (Or.inr ⟨hr, ?_⟩)
            intro hc
            rcases Finset.mem_union.1 hc with h | h
            · exact hnv h
            · exact hxN (List.mem_toFinset.1 h)

theorem bfs_spec (g : Graph α) (s : α) (hs : s ∈ keys g) :
    (bfs g s).Nodup ∧
    ((bfs g s).Pairwise fun a b => dist g s a ≤ dist g s b) ∧
    ∀ x, x ∈ bfs g s ↔ Reaches g s x := by
  have hg : g ≠ [] := by
    intro h
    rw [h] at hs
    exact absurd hs (List.not_mem_nil s)
  have hbfs : bfs g s = bfsLoop g (fuelB g) [s] {s} [] := by
    unfold bfs
    rw [if_neg hg]
  have inv0 : BfsInv g s [s] {s} [] := by
    refine
      { nodup := ?_, viseq := ?_, smem := ?_, reach := ?_, sorted := ?_,
        span := ?_, closed := ?_, frontier := ?_, full := ?_ }
    · simp
    · intro x
      simp
    · exact Finset.mem_singleton_self s
    · intro x hx
      rw [Finset.mem_singleton] at hx
      rw [hx]
      exact Relation.ReflTransGen.refl
    · simp
    · intro a ha b hb
      rw [List.mem_singleton] at ha hb
      rw [ha, hb]
      exact Nat.le_succ _
    · intro x hx
      exact absurd hx (List.not_mem_nil x)
    · intro y hyr hynv h hh
      have hhs : h = s := by simpa using hh.symm
      rw [hhs, dist_self]
      have hys : y ≠ s := fun hc => hynv (by rw [hc]; exact Finset.mem_singleton_self s)
      by_contra hlt
      push_neg at hlt
      have h0 : dist g s y = 0 := by omega
      exact hys (dist_eq_zero_imp hyr h0).symm
    · intro h
      exact absurd h (by simp)
  have hmeas : ([s] : List α).length + (nodesU g \ {s}).card < fuelB g := by
    have hcardle : (nodesU g \ {s}).card ≤ (nodesU g).card :=
      Finset.card_le_card Finset.sdiff_subset
    unfold fuelB
    simp only [List.length_singleton]
    omega
  obtain ⟨hnd, hpw, hmem⟩ := bfsLoop_spec g s (fuelB g) [s] {s} [] inv0 hmeas
  rw [hbfs]
  refine ⟨hnd, hpw, ?_⟩
  intro x
  rw [hmem x]
  constructor
  · rintro (hx | hx | ⟨hr, _⟩)
    · exact absurd hx (List.not_mem_nil x)
    · rw [List.mem_singleton] at hx
      rw [hx]
      exact Relation.ReflTransGen.refl
    · exact hr
  · intro hr
    by_cases hxs : x = s
    · exact Or.inr (Or.inl (List.mem_singleton.2 hxs))
    · exact Or.inr (Or.inr ⟨hr, by simp [hxs]⟩)

/-- Ignoring edge direction: the relation whose equivalence classes are the
(weakly) connected components. -/
def WeakReach (g : Graph α) (x y : α) : Prop :=
  Relation.ReflTransGen (fun a b => Edge g a b ∨ Edge g b a) x y

/-! ### Claim theorems: storage, reachability, DAG insertion -/

/-- C6: base `add_edge(u, v)` always succeeds; afterwards `u` and `v` are
keys (auto-inserted when absent), `v` is appended at the end of `u`'s
neighbor sequence (which is empty beforehand when `u` was absent), and every
other node's neighbor sequence is unchanged. -/
theorem add_edge_base_spec (g : Graph α) (u v : α) :
    (∀ x, x ∈ keys (addEdge g u v) ↔ x ∈ keys g ∨ x = u ∨ x = v) ∧
    adjGet (addEdge g u v) u = adjGet g u ++ [v] ∧
    (∀ w, w ≠ u → adjGet (addEdge g u v) w = adjGet g w) :=
  ⟨fun _ => mem_keys_addEdge, adjGet_addEdge_self g u v,
    fun _ hw => adjGet_addEdge_ne g v hw⟩

theorem add_edge_base_spec_witness :
    adjGet (addEdge ([] : Graph Nat) 0 1) 2 = adjGet ([] : Graph Nat) 2 :=
  (add_edge_base_spec ([] : Graph Nat) 0 1).2.2 2 (by decide)

/-- C4: `_has_path(start, end)` returns true when `start = end`, and in
general returns true exactly when a directed path from `start` to `end`
exists — on every graph state, including ones containing cycles (the
function is total by construction; the visited-set guard is what makes the
chosen fuel suffice, which this equivalence proves). -/
theorem has_path_spec (g : Graph α) (s e : α) :
    hasPath g s s = true ∧ (hasPath g s e = true ↔ Reaches g s e) :=
  ⟨hasPath_self g s, hasPath_iff_reaches g s e⟩

/-- C5: `DAG.add_edge(x, x)` always raises `CycleError` carrying `(x, x)` and
leaves the adjacency mapping unchanged, on every DAG state, including a fresh
one where `x` was never inserted. -/
theorem dag_add_edge_self_loop (g : Graph α) (x : α) :
    dagAddEdge g x x = (g, some (x, x)) := by
  unfold dagAddEdge
  rw [if_pos (hasPath_self g x)]

/-- C2: `DAG.add_edge(u, v)` raises exactly when a directed path from `v` to
`u` already exists; the error carries the rejected pair `(u, v)`; on raising,
the adjacency mapping is exactly as before the call; otherwise the call is
the base-class insertion. -/
theorem dag_add_edge_spec (g : Graph α) (u v : α) :
    ((dagAddEdge g u v).2 = some (u, v) ↔ Reaches g v u) ∧
    (Reaches g v u → (dagAddEdge g u v).1 = g) ∧
    (¬ Reaches g v u → dagAddEdge g u v = (addEdge g u v, none)) := by
  unfold dagAddEdge
  by_cases h : hasPath g v u = true
  · have hr : Reaches g v u := (hasPath_iff_reaches g v u).1 h
    rw [if_pos h]
    exact ⟨⟨fun _ => hr, fun _ => rfl⟩, fun _ => rfl, fun hn => absurd hr hn⟩
  · have hr : ¬ Reaches g v u := fun hre => h ((hasPath_iff_reaches g v u).2 hre)
    rw [if_neg h]
    refine ⟨⟨fun hs => absurd hs (by simp), fun hre => absurd hre hr⟩,
      fun hre => absurd hre hr, fun _ => rfl⟩

theorem dag_add_edge_spec_witness :
    (dagAddEdge (addEdge (addEdge ([] : Graph Nat) 0 1) 1 2) 2 0).1
      = addEdge (addEdge ([] : Graph Nat) 0 1) 1 2 := by
  have e1 : Edge (addEdge (addEdge ([] : Graph Nat) 0 1) 1 2) 0 1 := by decide
  have e2 : Edge (addEdge (addEdge ([] : Graph Nat) 0 1) 1 2) 1 2 := by decide
  exact (dag_add_edge_spec (addEdge (addEdge ([] : Graph Nat) 0 1) 1 2) 2 0).2.1
    (Relation.ReflTransGen.tail
      (Relation.ReflTransGen.tail Relation.ReflTransGen.refl e1) e2)

/-- C1: every DAG state reachable from a fresh DAG by `add_node` and
`add_edge` calls (raising calls leaving the state unchanged) has an acyclic
adjacency relation. -/
theorem dag_reachable_acyclic {g : Graph α} (h : DagReachable g) : Acyclic g := by
  induction h with
  | empty => exact acyclic_nil
  | addNode g n _ ih => exact acyclic_addNode ih n
  | addEdge g u v _ ih => exact acyclic_dagAddEdge ih u v

theorem dag_reachable_acyclic_witness :
    Acyclic (dagAddEdge (addNode (dagAddEdge ([] : Graph Nat) 0 1).1 5) 1 2).1 :=
  dag_reachable_acyclic
    (DagReachable.addEdge _ 1 2
      (DagReachable.addNode _ 5 (DagReachable.addEdge _ 0 1 DagReachable.empty)))

/-- The dressing-graph demo from `student_code.py`, with nodes renamed
shirt=0, tie=1, belt=2, jacket=3, pants=4, shoes=5, socks=6. -/
def demoDag : Graph Nat :=
  addEdge (addEdge (addEdge (addEdge (addEdge (addEdge (addEdge
    ([] : Graph Nat) 0 1) 0 2) 1 3) 2 3) 4 5) 4 2) 6 5

/-- C3: on an acyclic well-formed graph, `topsort` returns a permutation of
the node set (hence of the right length, no duplicates, none missing) in
which the source of every edge occurs at a strictly earlier index than its
target. -/
theorem topsort_topological (g : Graph α) (hc : Closed g) (hnd : (keys g).Nodup)
    (hac : Acyclic g) :
    (topsort g).Perm (keys g) ∧
    ∀ u v, Edge g u v → ∀ (i j : Nat),
      (topsort g)[i]? = some u → (topsort g)[j]? = some v → i < j :=
  ⟨topsort_perm_keys g hc hnd, topsort_order g hac⟩

theorem topsort_topological_witness :
    (topsort demoDag).Perm (keys demoDag) :=
  (topsort_topological demoDag (by decide) (by decide)
    (acyclic_of_acyclicB (by decide))).1

/-- C10: `topsort` is total and returns a permutation of the key set on every
well-formed graph, acyclic or not — the visited-set guard keeps the recursion
bounded, and only the ordering property (not membership or multiplicity)
can fail on cyclic input. -/
theorem topsort_total_permutation (g : Graph α) (hc : Closed g)
    (hnd : (keys g).Nodup) : (topsort g).Perm (keys g) :=
  topsort_perm_keys g hc hnd

theorem topsort_total_permutation_witness :
    (topsort (addEdge (addEdge ([] : Graph Nat) 0 1) 1 0)).Perm
      (keys (addEdge (addEdge ([] : Graph Nat) 0 1) 1 0)) :=
  topsort_total_permutation (addEdge (addEdge ([] : Graph Nat) 0 1) 1 0)
    (by decide) (by decide)

/-- C9 counterexample: with `start` absent from the graph, `dfs` and `bfs` do
NOT produce an empty sequence — they yield the one-element sequence
`[start]`. -/
theorem absent_start_counterexample :
    5 ∉ keys (addEdge ([] : Graph Nat) 0 1) ∧
    dfs (addEdge ([] : Graph Nat) 0 1) 5 = [5] ∧
    bfs (addEdge ([] : Graph Nat) 0 1) 5 = [5] := by decide

/-- C9 amended: with `start` absent, `dfs(start)` yields exactly `[start]`
(no error), and `bfs(start)` yields `[start]` on a nonempty graph and the
empty sequence on an empty graph. -/
theorem traversal_absent_start (g : Graph α) (s : α) (hs : s ∉ keys g) :
    dfs g s = [s] ∧ bfs g s = if g = [] then [] else [s] := by
  constructor
  · show (visitNode g ((nodesU g).card + 1) s ⟨∅, [], []⟩).pre = [s]
    rw [visitNode_succ, if_neg (Finset.not_mem_empty s),
      adjGet_eq_nil_of_not_mem_keys hs]
    rfl
  · by_cases hg : g = []
    · rw [if_pos hg]
      show (if g = [] then [] else _) = ([] : List α)
      rw [if_pos hg]
    · rw [if_neg hg]
      show (if g = [] then [] else bfsLoop g (fuelB g) [s] {s} []) = [s]
      rw [if_neg hg]
      show bfsLoop g ((nodesU g).card + 1 + 1) [s] {s} [] = [s]
      rw [bfsLoop_cons, adjGet_eq_nil_of_not_mem_keys hs]
      rfl

theorem traversal_absent_start_witness :
    dfs (addEdge ([] : Graph Nat) 0 1) 7 = [7] :=
  (traversal_absent_start (addEdge ([] : Graph Nat) 0 1) 7 (by decide)).1

/-- C7 counterexample: in the graph with edges `0 -> 1` and `2 -> 1`, node
`2` lies in the connected component of `0` (direction ignored), yet
`dfs(0)` does not yield it — a directed traversal only reaches the
out-reachable part, not the whole component. -/
theorem traversal_component_counterexample :
    0 ∈ keys (addEdge (addEdge ([] : Graph Nat) 0 1) 2 1) ∧
    WeakReach (addEdge (addEdge ([] : Graph Nat) 0 1) 2 1) 0 2 ∧
    2 ∉ dfs (addEdge (addEdge ([] : Graph Nat) 0 1) 2 1) 0 := by
  refine ⟨by decide, ?_, by decide⟩
  have e1 : Edge (addEdge (addEdge ([] : Graph Nat) 0 1) 2 1) 0 1 := by decide
  have e2 : Edge (addEdge (addEdge ([] : Graph Nat) 0 1) 2 1) 2 1 := by decide
  exact Relation.ReflTransGen.tail
    (Relation.ReflTransGen.tail Relation.ReflTransGen.refl (Or.inl e1))
    (Or.inr e2)

/-- C7 amended: `dfs(s)` and `bfs(s)`, started from a node `s` of the graph,
each yield exactly the set of nodes reachable from `s` along directed edges
(not the connected component!), with no duplicates, each node exactly
once. -/
theorem traversal_reachable_set (g : Graph α) (s : α) (hs : s ∈ keys g) :
    ((dfs g s).Nodup ∧ ∀ y, y ∈ dfs g s ↔ Reaches g s y) ∧
    (bfs g s).Nodup ∧ ∀ y, y ∈ bfs g s ↔ Reaches g s y :=
  ⟨dfs_reach_spec g s hs, (bfs_spec g s hs).1, (bfs_spec g s hs).2.2⟩

theorem traversal_reachable_set_witness :
    (dfs demoDag 0).Nodup ∧ (bfs demoDag 0).Nodup :=
  ⟨(traversal_reachable_set demoDag 0 (by decide)).1.1,
    (traversal_reachable_set demoDag 0 (by decide)).2.1⟩

/-- C8: `bfs(start)`, for a start node of the graph, yields nodes in
non-decreasing order of edge-distance (shortest directed path length) from
`start`. -/
theorem bfs_layering (g : Graph α) (s : α) (hs : s ∈ keys g) :
    (bfs g s).Pairwise fun a b => dist g s a ≤ dist g s b :=
  (bfs_spec g s hs).2.1

theorem bfs_layering_witness :
    (bfs demoDag 0).Pairwise fun a b => dist demoDag 0 a ≤ dist demoDag 0 b :=
  bfs_layering demoDag 0 (by decide)

end SD

namespace SD

-- Sanity anchors mirroring the demo runs in `student_code.py`
-- (nodes renamed to numerals: A=0 B=1 C=2 D=3; shirt=0 tie=1 belt=2
--  jacket=3 pants=4 shoes=5 socks=6).

example :
    dfs (addEdge (addEdge (addEdge (addEdge ([] : Graph Nat) 0 1) 0 2) 1 3) 2 3) 0
      = [0, 1, 3, 2] := by decide

example :
    bfs (addEdge (addEdge (addEdge (addEdge ([] : Graph Nat) 0 1) 0 2) 1 3) 2 3) 0
      = [0, 1, 2, 3] := by decide

example :
    topsort (addEdge (addEdge (addEdge (addEdge (addEdge (addEdge (addEdge
      ([] : Graph Nat) 0 1) 0 2) 1 3) 2 3) 4 5) 4 2) 6 5)
      = [6, 4, 5, 0, 2, 1, 3] := by decide

example :
    (dagAddEdge (addEdge (addEdge (addEdge (addEdge ([] : Graph Nat)
      0 1) 0 2) 1 3) 2 3) 3 0).2 = some (3, 0) := by decide

end SD
